import Mathlib

/-!
Verification development for the `deck` front-end framework, centred on the
pub/sub and WebSocket layer in `src/js/core/Dispatcher.js`, the Component
lifecycle in `src/js/components/Component.js`, and `src/js/core/Deck.js`.
Each JavaScript routine that the properties below talk about is embedded as
an executable Lean function over explicit data; side effects (DOM events,
timers, socket operations) are represented as explicit effect lists in the
order the code performs them.  Strings are modelled as `List Char`.
-/

set_option maxHeartbeats 1000000

/-- Whitespace test used by the embedded `trim` (models the whitespace
class of the JavaScript `String.prototype.trim`). -/
def isWs (c : Char) : Bool := c.isWhitespace

/-- Model of the JavaScript `str.split(sep)` for a single-character
separator: splits into groups, keeping empty groups, so that
`charSplit c s` always has length `(count of c) + 1`. -/
def charSplit (sep : Char) : List Char → List (List Char)
  | [] => [[]]
  | c :: rest =>
    let r := charSplit sep rest
    if c = sep then [] :: r
    else
      match r with
      | [] => [[c]]
      | g :: gs => (c :: g) :: gs

/-- Model of `str.trim()`: drop whitespace from both ends. -/
def trimChars (s : List Char) : List Char :=
  ((s.dropWhile isWs).reverse.dropWhile isWs).reverse

/-- Model of `str.toLowerCase()` (ASCII-adequate for the inputs at hand). -/
def toLowerChars (s : List Char) : List Char := s.map Char.toLower

/-- Characters matched by an unflagged `.` in a JavaScript regular
expression: every character except the four line terminators. -/
def dotChar (c : Char) : Bool :=
  !(c = '\n' || c = '\r' || c.toNat = 0x2028 || c.toNat = 0x2029)

/-- Backtracking search for one `.*seg` regex step: either the literal
segment matches here and the continuation `f` accepts the remainder, or
`.*` consumes one (non-line-terminator) character and the search resumes
on the tail. -/
def tailsCheck (seg : List Char) (f : List Char → Bool) : List Char → Bool
  | [] => seg.isPrefixOf [] && f (List.drop seg.length [])
  | c :: t =>
    (seg.isPrefixOf (c :: t) && f ((c :: t).drop seg.length)) ||
    (dotChar c && tailsCheck seg f t)

/-- Matcher for the tail of the wildcard regex built at Dispatcher.js:175:
`matchTail segs s` decides whether `s` is matched by the regex fragment
`.*seg₁.*seg₂…segₙ$` (each remaining literal segment preceded by `.*`,
anchored at the end). -/
def matchTail : List (List Char) → List Char → Bool
  | [], s => s.isEmpty
  | seg :: rest, s => tailsCheck seg (matchTail rest) s

/-- Matcher for the whole wildcard regex `^seg₀.*seg₁…segₙ$`: the first
literal segment is anchored at the start. -/
def matchSegs : List (List Char) → List Char → Bool
  | [], s => s.isEmpty
  | seg :: rest, s => seg.isPrefixOf s && matchTail rest (s.drop seg.length)

/-- Model of the wildcard test in `Dispatcher.emit` (Dispatcher.js:170-175):
the pattern is split on `*`, every literal segment is regex-escaped, the
pieces are rejoined with `.*`, and the resulting anchored regex is tested
against the emitted name.  Escaping makes the segments literal, so the
test is glob matching with `*` standing for `.*`. -/
def globTest (pat name : List Char) : Bool :=
  matchSegs (charSplit '*' pat) name

/-- Embedding of the `DispatcherEvent` class (Dispatcher.js:6-48): an event
name together with its ordered callback list.  Callbacks are identified by
numeric ids; invoking a callback is recorded by its id in a trace. -/
structure DispatcherEvent where
  eventName : List Char
  callbacks : List Nat
deriving DecidableEq, Repr

/-- Embedding of `DispatcherEvent.fire` (Dispatcher.js:42-47): the method
copies the callback list and invokes each callback in order, so the trace
of invoked callback ids is exactly the callback list. -/
def DispatcherEvent.fire (e : DispatcherEvent) : List Nat := e.callbacks

/-- The `this.events` object of a Dispatcher, as an insertion-ordered list
of entries keyed by `eventName` (string keys of a plain object iterate in
insertion order); `Dispatcher.on` keeps the keys unique. -/
abbrev EventTable := List DispatcherEvent

/-- Model of the object lookup `this.events[eventName]`. -/
def findEvent (events : EventTable) (name : List Char) : Option DispatcherEvent :=
  events.find? (fun e => e.eventName == name)

namespace Dispatcher

/-- Embedding of `Dispatcher.on` (Dispatcher.js:187-194): fetch or create
the entry for `eventName`, then push the callback. -/
def on' (events : EventTable) (name : List Char) (cb : Nat) : EventTable :=
  match findEvent events name with
  | some _ =>
    events.map fun e =>
      if e.eventName == name then { e with callbacks := e.callbacks ++ [cb] } else e
  | none => events ++ [⟨name, [cb]⟩]

/-- Embedding of `Dispatcher.off` (Dispatcher.js:203-211): if the entry
exists and holds the callback, splice out its first occurrence; delete the
entry when no callbacks remain. -/
def off (events : EventTable) (name : List Char) (cb : Nat) : EventTable :=
  match findEvent events name with
  | none => events
  | some ev =>
    if cb ∈ ev.callbacks then
      if ev.callbacks.erase cb = [] then
        events.filter fun e => !(e.eventName == name)
      else
        events.map fun e =>
          if e.eventName == name then { e with callbacks := e.callbacks.erase cb } else e
    else events

/-- Embedding of `Dispatcher.emit` (Dispatcher.js:162-179): fire the entry
registered exactly under `eventName` (if any), then walk every table entry
in order and fire those whose name contains `*` and whose derived regex
matches `eventName`.  The result is the trace of invoked callback ids. -/
def emit (events : EventTable) (name : List Char) : List Nat :=
  (match findEvent events name with
   | some e => e.fire
   | none => []) ++
  events.flatMap fun e =>
    if e.eventName.contains '*' && globTest e.eventName name then e.fire else []

end Dispatcher

/-- Specification-side reading of part (a) of the emit contract: the
callbacks registered exactly under the emitted name. -/
def directCallbacks (events : EventTable) (name : List Char) : List Nat :=
  match findEvent events name with
  | some e => e.callbacks
  | none => []

/-- Specification-side reading of part (b) of the emit contract: the
callbacks of every wildcard entry whose pattern matches the emitted name,
in table order. -/
def wildcardCallbacks (events : EventTable) (name : List Char) : List Nat :=
  events.flatMap fun e =>
    if e.eventName.contains '*' && globTest e.eventName name then e.callbacks else []

/-- Interleaving witnessing a match of the regex fragment
`.*seg₁.*seg₂…segₙ$`: each segment is preceded by one wildcard-filled gap. -/
def glueTail : List (List Char) → List (List Char) → List Char
  | [], _ => []
  | seg :: _, [] => seg
  | seg :: rest, w :: ws => w ++ seg ++ glueTail rest ws

/-- Interleaving witnessing a match of the full pattern
`^seg₀.*seg₁…segₙ$`: the segments in order with one gap between each
consecutive pair. -/
def glueSegs : List (List Char) → List (List Char) → List Char
  | [], _ => []
  | seg :: _, [] => seg
  | seg :: rest, w :: ws => seg ++ w ++ glueSegs rest ws

/-- Declarative wildcard-pattern semantics, written from the specification
words: a pattern containing `*` matches a name when the name decomposes
into the literal segments of the pattern, in order, with arbitrary
(line-terminator-free) text in place of each `*`. -/
def GlobSpec (pat name : List Char) : Prop :=
  ∃ ws : List (List Char),
    ws.length + 1 = (charSplit '*' pat).length ∧
    (∀ w ∈ ws, w.all dotChar = true) ∧
    name = glueSegs (charSplit '*' pat) ws

/-- Errors that embedded JavaScript code can throw; the only one reachable
in the modelled fragments is the TypeError from dereferencing
`null`/`undefined`. -/
inductive JsError where
  | typeError
deriving DecidableEq, Repr

instance {e a : Type} [DecidableEq e] [DecidableEq a] : DecidableEq (Except e a) := fun x y =>
  match x, y with
  | .error u, .error v =>
    if h : u = v then .isTrue (by rw [h]) else .isFalse (by intro hc; cases hc; exact h rfl)
  | .ok u, .ok v =>
    if h : u = v then .isTrue (by rw [h]) else .isFalse (by intro hc; cases hc; exact h rfl)
  | .error _, .ok _ => .isFalse (by intro hc; cases hc)
  | .ok _, .error _ => .isFalse (by intro hc; cases hc)

/-- The socket handle as far as the Dispatcher reads it: its `readyState`
(0 CONNECTING, 1 OPEN, 2 CLOSING, 3 CLOSED). -/
structure WebSocket where
  readyState : Nat
deriving DecidableEq, Repr

/-- The per-instance constant `WebSocket.prototype.OPEN`, read by the code
as `this.wss.OPEN`. -/
def WebSocket.OPEN (_ : WebSocket) : Nat := 1

/-- The `this.state` record assigned by the Dispatcher constructor
(Dispatcher.js:60-63): the reconnection flag and the configured delay. -/
structure WsState where
  reconnection : Bool
  reconnectionDelay : Nat
deriving DecidableEq, Repr

/-- The connection-relevant fields of a Dispatcher instance: the socket
handle `this.wss` (null before `connect()`) and `this.state`. -/
structure DispatcherConn where
  wss : Option WebSocket
  state : WsState
deriving DecidableEq, Repr

/-- The Dispatcher constructor (Dispatcher.js:56-68): no socket yet,
reconnection enabled, configured delay 1000 ms. -/
def DispatcherConn.construct : DispatcherConn :=
  { wss := none, state := { reconnection := true, reconnectionDelay := 1000 } }

/-- The property read `this.reconnectionDelay` performed by the onclose
handler at Dispatcher.js:107.  No statement in the class ever assigns that
property (the constructor assigns `this.state.reconnectionDelay` instead),
so the read evaluates to `undefined`, modelled as `none`. -/
def DispatcherConn.thisReconnectionDelay (_ : DispatcherConn) : Option Nat := none

/-- Side effects performed by the connection-layer methods, in program
order.  `scheduleReconnect d` records a `setTimeout(() => this.connect(), d)`
call with the raw delay argument `d` (`none` models `undefined`, which the
host timer treats as a zero delay). -/
inductive WsEffect where
  | docEvent (name : List Char)
  | emitLocal (name : List Char)
  | scheduleReconnect (delay : Option Nat)
  | closeSocket
  | sendFrame (payload : List Char)
deriving DecidableEq, Repr

namespace Dispatcher

/-- Embedding of the `onclose` handler installed by `connect`
(Dispatcher.js:100-109): dispatch `deck.wss.close` on the document, emit
the local `wssDisconnect`, and, if `this.state.reconnection` holds and the
socket is null or closed, schedule one reconnect with the delay read from
`this.reconnectionDelay`. -/
def onclose (d : DispatcherConn) : List WsEffect :=
  [.docEvent "deck.wss.close".toList, .emitLocal "wssDisconnect".toList] ++
  (if d.state.reconnection && (d.wss.isNone || d.wss.map (·.readyState) == some 3) then
    [.scheduleReconnect d.thisReconnectionDelay]
  else [])

/-- Embedding of `Dispatcher.disconnect` (Dispatcher.js:121-126).  The
guard compares the optional chains `this.wss?.readyState` and
`this.wss?.OPEN`; when the socket is null both sides are `undefined` and
the branch is taken, so the flag is cleared and the unguarded
`this.wss.close()` then throws a TypeError.  When the socket is open the
flag is cleared and the socket is closed; in every other state nothing
happens.  Returns the updated instance, the effects, and the thrown
error, if any. -/
def disconnect (d : DispatcherConn) : DispatcherConn × List WsEffect × Option JsError :=
  if d.wss.map (·.readyState) = d.wss.map (·.OPEN) then
    match d.wss with
    | none =>
      ({ d with state := { d.state with reconnection := false } }, [], some .typeError)
    | some w =>
      ({ d with state := { d.state with reconnection := false },
                wss := some { w with readyState := 2 } },
       [.closeSocket], none)
  else (d, [], none)

/-- Embedding of `Dispatcher.send` (Dispatcher.js:149-153): only when the
socket exists and `readyState` equals `OPEN` is the JSON-serialized datum
transmitted; otherwise nothing happens.  Serialization (`JSON.stringify`)
is abstracted as the supplied `stringify` function. -/
def send {α : Type} (d : DispatcherConn) (stringify : α → List Char) (data : α) :
    List WsEffect :=
  match d.wss with
  | some w => if w.readyState = w.OPEN then [.sendFrame (stringify data)] else []
  | none => []

end Dispatcher

/-- Association-list model of a plain JavaScript object: entries in
insertion order, keys unique whenever the object was built by property
assignment. -/
abbrev Obj (κ α : Type) := List (κ × α)

/-- Model of the property read `o[k]`: the first entry with key `k`. -/
def objGet {κ α : Type} [DecidableEq κ] (o : Obj κ α) (k : κ) : Option α :=
  (o.find? fun p => p.1 == k).map (·.2)

/-- Model of the property write `o[k] = v`: overwrite the entry in place
when the key is present, else append a new entry. -/
def objSet {κ α : Type} [DecidableEq κ] (o : Obj κ α) (k : κ) (v : α) : Obj κ α :=
  if (o.find? fun p => p.1 == k).isSome then
    o.map fun p => if p.1 == k then (k, v) else p
  else o ++ [(k, v)]

/-- Model of the spread merge `{...a, ...b}`: assign every entry of `b`
onto a copy of `a`, in order. -/
def objMerge {κ α : Type} [DecidableEq κ] (a b : Obj κ α) : Obj κ α :=
  b.foldl (fun acc p => objSet acc p.1 p.2) a

/-- Key list of an object, in entry order. -/
def objKeys {κ α : Type} (o : Obj κ α) : List κ := o.map (·.1)

/-- Numeric value of a decimal digit character. -/
def digitVal (c : Char) : Nat := c.toNat - '0'.toNat

/-- Value of a digit string read in base `b`. -/
def digitsToNat (b : Nat) (hv : Char → Nat) (ds : List Char) : Nat :=
  ds.foldl (fun a c => a * b + hv c) 0

/-- Hexadecimal digit test. -/
def isHexDigitChar (c : Char) : Bool :=
  c.isDigit || ('a' ≤ c && c ≤ 'f') || ('A' ≤ c && c ≤ 'F')

/-- Value of a hexadecimal digit character. -/
def hexDigitVal (c : Char) : Nat :=
  if c.isDigit then digitVal c
  else if 'a' ≤ c && c ≤ 'f' then c.toNat - 'a'.toNat + 10
  else c.toNat - 'A'.toNat + 10

/-- A non-NaN JavaScript number as it arises from parsing a string: an
infinity or a finite rational (every decimal literal is rational). -/
inductive JNum where
  | inf (neg : Bool)
  | fin (q : ℚ)
deriving DecidableEq, Repr

/-- Longest-prefix parse of an unsigned decimal mantissa
(`digits`, `digits.digits`, `.digits` or `digits.`): returns the value as
a numerator/denominator pair together with the unconsumed rest, or `none`
when no digit is present. -/
def parseDecPrefix (s : List Char) : Option ((Nat × Nat) × List Char) :=
  let ip := s.takeWhile Char.isDigit
  let r1 := s.dropWhile Char.isDigit
  match r1 with
  | '.' :: r2 =>
    let fp := r2.takeWhile Char.isDigit
    let r3 := r2.dropWhile Char.isDigit
    if ip.isEmpty && fp.isEmpty then none
    else
      some ((digitsToNat 10 digitVal ip * 10 ^ fp.length + digitsToNat 10 digitVal fp,
             10 ^ fp.length), r3)
  | _ => if ip.isEmpty then none else some ((digitsToNat 10 digitVal ip, 1), r1)

/-- Longest-prefix parse of a decimal exponent part (`e`/`E`, optional
sign, at least one digit).  An invalid exponent is not consumed, matching
the longest-valid-literal rule of the JavaScript grammar. -/
def parseExpPrefix (s : List Char) : Int × List Char :=
  match s with
  | c :: rest =>
    if c = 'e' || c = 'E' then
      let sr : Bool × List Char :=
        match rest with
        | '+' :: r => (false, r)
        | '-' :: r => (true, r)
        | r => (false, r)
      let ds := sr.2.takeWhile Char.isDigit
      if ds.isEmpty then (0, c :: rest)
      else ((if sr.1 then -(digitsToNat 10 digitVal ds : Int)
             else (digitsToNat 10 digitVal ds : Int)),
            sr.2.dropWhile Char.isDigit)
    else (0, c :: rest)
  | [] => (0, [])

/-- Split an optional leading sign. -/
def splitSign (s : List Char) : Bool × List Char :=
  match s with
  | '+' :: r => (false, r)
  | '-' :: r => (true, r)
  | r => (false, r)

/-- Assemble a finite JavaScript number from a sign, an unsigned
numerator/denominator mantissa, and a decimal exponent, without leaving
integer arithmetic (`10 ^ e` scales the numerator for `e ≥ 0` and the
denominator otherwise). -/
def assembleDec (neg : Bool) (m : Nat × Nat) (e : Int) : ℚ :=
  let sn : Int := if neg then -(m.1 : Int) else (m.1 : Int)
  match e with
  | .ofNat k => mkRat (sn * (10 ^ k : Nat)) m.2
  | .negSucc k => mkRat sn (m.2 * 10 ^ (k + 1))

/-- Model of the signed decimal arm of the `Number(string)` conversion:
optional sign, then either the exact word `Infinity` or a decimal literal
with optional exponent, with nothing left over; anything else is NaN
(`none`). -/
def toNumberSigned (t : List Char) : Option JNum :=
  let sr := splitSign t
  if sr.2 = "Infinity".toList then some (.inf sr.1)
  else
    match parseDecPrefix sr.2 with
    | none => none
    | some (m, r) =>
      let er := parseExpPrefix r
      if er.2 = [] then some (.fin (assembleDec sr.1 m er.1))
      else none

/-- Model of the `Number(string)` conversion performed by the global
`isNaN` on a string argument: trim, empty means zero, unsigned radix
literals (`0x`, `0o`, `0b`), otherwise the signed decimal arm.  `none`
models NaN. -/
def toNumberJs (s : List Char) : Option JNum :=
  let t := trimChars s
  if t = [] then some (.fin (mkRat 0 1))
  else
    match t with
    | '0' :: c :: rest =>
      if c = 'x' || c = 'X' then
        if !rest.isEmpty && rest.all isHexDigitChar then
          some (.fin (mkRat (digitsToNat 16 hexDigitVal rest) 1))
        else none
      else if c = 'o' || c = 'O' then
        if !rest.isEmpty && rest.all (fun d => '0' ≤ d && d ≤ '7') then
          some (.fin (mkRat (digitsToNat 8 digitVal rest) 1))
        else none
      else if c = 'b' || c = 'B' then
        if !rest.isEmpty && rest.all (fun d => d = '0' || d = '1') then
          some (.fin (mkRat (digitsToNat 2 digitVal rest) 1))
        else none
      else toNumberSigned t
    | _ => toNumberSigned t

/-- Model of the global `parseFloat(string)`: skip leading whitespace,
optional sign, then the longest prefix that is `Infinity` or a decimal
literal with optional exponent; NaN (`none`) when no digit can be read.
In particular `parseFloat("")` is NaN. -/
def parseFloatJs (s : List Char) : Option JNum :=
  let t := s.dropWhile isWs
  let sr := splitSign t
  if "Infinity".toList.isPrefixOf sr.2 then some (.inf sr.1)
  else
    match parseDecPrefix sr.2 with
    | none => none
    | some (m, r) =>
      let er := parseExpPrefix r
      some (.fin (assembleDec sr.1 m er.1))

/-- The values the attribute parser can store in the configuration
object: booleans, numbers (including NaN), arrays of trimmed strings, and
plain trimmed strings. -/
inductive JsValue where
  | bool (b : Bool)
  | num (n : JNum)
  | nan
  | str (s : List Char)
  | strArr (xs : List (List Char))
deriving DecidableEq, Repr

/-- Embedding of the value coercion in `Component.#getConfigAttribute`
(Component.js:77-89): comma means array of trimmed strings; literal
`true`/`false` case-insensitively means boolean; a value that `isNaN`
rejects is converted with `parseFloat` (which yields NaN for the empty
string); everything else stays a string. -/
def coerceValue (v : List Char) : JsValue :=
  if v.contains ',' then .strArr ((charSplit ',' v).map trimChars)
  else if toLowerChars v = "true".toList then .bool true
  else if toLowerChars v = "false".toList then .bool false
  else if (toNumberJs v).isSome then
    match parseFloatJs v with
    | some n => .num n
    | none => .nan
  else .str v

/-- Embedding of the key/value loop in `Component.#getConfigAttribute`
(Component.js:71-93): each pair is split on `:` and the first two parts
are taken as key and value.  A pair with no colon leaves the value
`undefined`, and the immediate `value.includes(",")` call then throws a
TypeError, which this model propagates. -/
def parsePairs : List (List Char) → Obj (List Char) JsValue →
    Except JsError (Obj (List Char) JsValue)
  | [], acc => .ok acc
  | p :: rest, acc =>
    match (charSplit ':' p).map trimChars with
    | [] => .error .typeError
    | key :: parts =>
      match parts with
      | [] => .error .typeError
      | v :: _ => parsePairs rest (objSet acc key (coerceValue v))

/-- Embedding of the parsing core of `Component.#getConfigAttribute`
(Component.js:68-97), applied to the raw attribute string: split on `;`,
trim each pair, drop empty pairs (`filter(Boolean)`), then run the
key/value loop. -/
def getConfigAttribute (s : List Char) : Except JsError (Obj (List Char) JsValue) :=
  parsePairs (((charSplit ';' s).map trimChars).filter fun p => !p.isEmpty) []

/-- Side effects of `Component.dispatchEvent`: the DOM dispatch on the
context element (which runs the listeners) and the optional re-publish on
the deck bus, with the event name and detail payload. -/
inductive CompEffect (δ : Type) where
  | domDispatch (name : List Char) (detail : Option δ)
  | deckEmit (name : List Char) (detail : Option δ)
deriving DecidableEq, Repr

/-- Embedding of `Component.dispatchEvent` (Component.js:265-291).  With a
null context the method returns early (`undefined`, modelled `none`).
Otherwise the event is dispatched on the context: `dispatched` is the
return of the DOM `dispatchEvent` and `defaultPrevented` records whether a
listener called `preventDefault`.  When either signals cancellation the
method returns `false` with no further effect; otherwise it re-publishes
the name and detail on the deck when present and returns `true`. -/
def Component.dispatchEvent {δ : Type} (hasContext hasDeck : Bool)
    (dispatched defaultPrevented : Bool) (eventName : List Char)
    (detail : Option δ) : Option Bool × List (CompEffect δ) :=
  if !hasContext then (none, [])
  else if !dispatched || defaultPrevented then
    (some false, [.domDispatch eventName detail])
  else
    (some true,
     [.domDispatch eventName detail] ++
       (if hasDeck then [.deckEmit eventName detail] else []))

/-- The state-propagation slice of one component wired to one Deck: the
presence of a `deck` reference, whether `initState` has registered the
`stateChange` subscription (Component.js:126-131), the derived state key,
the local `this.state` cache, and the Deck-side keyed store
(`deck.state`). -/
structure CompWorld (α : Type) where
  hasDeck : Bool
  subscribed : Bool
  stateKey : List Char
  compState : Obj (List Char) α
  deckState : Obj (List Char) (Obj (List Char) α)
deriving DecidableEq, Repr

/-- Embedding of the `stateChange` subscription callback registered by
`Component.initState` (Component.js:126-131): when the emitted record has
a slice under this instance's key, merge that slice into the local state. -/
def stateChangeHandler {α : Type} (w : CompWorld α)
    (newState : Obj (List Char) (Obj (List Char) α)) : CompWorld α :=
  if w.subscribed then
    match objGet newState w.stateKey with
    | some slice => { w with compState := objMerge w.compState slice }
    | none => w
  else w

/-- Embedding of `Deck.setState` (Deck.js:146-148) together with the state
Proxy trap (Deck.js:34-45): store the value under the key, then
synchronously emit `stateChange` with the single-key record, which runs
the component's subscription callback when present. -/
def Deck.setState {α : Type} (w : CompWorld α) (key : List Char)
    (value : Obj (List Char) α) : CompWorld α :=
  stateChangeHandler { w with deckState := objSet w.deckState key value } [(key, value)]

/-- Embedding of `Component.updateState` (Component.js:164-169): compute
the shallow merge of the update into the local state and, only if a deck
reference is present, store it via `Deck.setState` under this instance's
state key.  The method itself never assigns `this.state`. -/
def Component.updateState {α : Type} (w : CompWorld α)
    (newState : Obj (List Char) α) : CompWorld α :=
  let updatedState := objMerge w.compState newState
  if w.hasDeck then Deck.setState w w.stateKey updatedState else w

/-- The tail-matcher analogue of `GlobSpec`: the remaining input decomposes
into one gap before each remaining segment, ending exactly after the last
segment. -/
def TailSpec (segs : List (List Char)) (s : List Char) : Prop :=
  ∃ ws : List (List Char),
    ws.length = segs.length ∧
    (∀ w ∈ ws, w.all dotChar = true) ∧
    s = glueTail segs ws

theorem charSplit_ne_nil (sep : Char) (s : List Char) : charSplit sep s ≠ [] := by
  cases s with
  | nil => simp [charSplit]
  | cons c rest =>
    by_cases h : c = sep
    · simp [charSplit, h]
    · simp only [charSplit, if_neg h]
      cases charSplit sep rest <;> simp


theorem matchTail_cons_eq (seg : List Char) (rest : List (List Char)) (s : List Char) :
    matchTail (seg :: rest) s =
      ((seg.isPrefixOf s && matchTail rest (s.drop seg.length)) ||
       (match s with
        | [] => false
        | c :: t => dotChar c && matchTail (seg :: rest) t)) := by
  cases s with
  | nil => simp [matchTail, tailsCheck]
  | cons c t => rfl

theorem matchTail_iff (segs : List (List Char)) (s : List Char) :
    matchTail segs s = true ↔ TailSpec segs s := by
  have main : ∀ n (segs : List (List Char)) (s : List Char),
      s.length + segs.length ≤ n → (matchTail segs s = true ↔ TailSpec segs s) := by
    intro n
    induction n with
    | zero =>
      intro segs s h
      have hs : s = [] := by
        have := Nat.le_zero.mp h
        cases s <;> simp_all
      have hsegs : segs = [] := by
        have := Nat.le_zero.mp h
        cases segs <;> simp_all
      subst hs; subst hsegs
      constructor
      · intro _
        exact ⟨[], rfl, by simp, rfl⟩
      · intro _
        simp [matchTail]
    | succ n ih =>
      intro segs s h
      match segs with
      | [] =>
        simp only [matchTail, List.isEmpty_iff]
        constructor
        · intro hs
          exact ⟨[], rfl, by simp, by simp [hs, glueTail]⟩
        · rintro ⟨ws, hlen, -, hs⟩
          have hws : ws = [] := List.eq_nil_of_length_eq_zero hlen
          subst hws
          simp [glueTail] at hs
          exact hs
      | seg :: rest =>
        rw [matchTail_cons_eq]
        constructor
        · intro hm
          rcases Bool.or_eq_true_iff.mp hm with h1 | h2
          · obtain ⟨hpre, htail⟩ := Bool.and_eq_true_iff.mp h1
            obtain ⟨t, ht⟩ : seg <+: s := List.isPrefixOf_iff_prefix.mp hpre
            have hdrop : s.drop seg.length = t := by
              rw [← ht, List.drop_left]
            rw [hdrop] at htail
            have hbound : t.length + rest.length ≤ n := by
              have hslen : t.length ≤ s.length := by
                rw [← ht]; simp
              simp only [List.length_cons] at h
              omega
            obtain ⟨ws, hlen, hdot, hglue⟩ := (ih rest t hbound).mp htail
            refine ⟨[] :: ws, by simp [hlen], ?_, ?_⟩
            · intro u hu
              rcases List.mem_cons.mp hu with hu | hu
              · subst hu; simp
              · exact hdot u hu
            · simp only [glueTail, List.nil_append]
              rw [← ht, hglue]
          · cases s with
            | nil => simp at h2
            | cons c t =>
              obtain ⟨hc, ht⟩ := Bool.and_eq_true_iff.mp h2
              have hbound : t.length + (seg :: rest).length ≤ n := by
                simp only [List.length_cons] at h ⊢
                omega
              obtain ⟨ws, hlen, hdot, hglue⟩ := (ih (seg :: rest) t hbound).mp ht
              match ws, hlen with
              | w :: ws, hlen =>
                simp only [glueTail] at hglue
                refine ⟨(c :: w) :: ws, by simpa using hlen, ?_, ?_⟩
                · intro u hu
                  rcases List.mem_cons.mp hu with hu | hu
                  · subst hu
                    rw [List.all_cons, Bool.and_eq_true]
                    exact ⟨hc, hdot w (by simp)⟩
                  · exact hdot u (List.mem_cons_of_mem _ hu)
                · simp only [glueTail, List.cons_append]
                  rw [hglue]
        · rintro ⟨ws, hlen, hdot, hglue⟩
          match ws, hlen with
          | w :: ws, hlen =>
            match w with
            | [] =>
              apply Bool.or_eq_true_iff.mpr
              left
              simp only [glueTail, List.nil_append] at hglue
              apply Bool.and_eq_true_iff.mpr
              refine ⟨by rw [hglue]; exact List.isPrefixOf_iff_prefix.mpr ⟨_, rfl⟩, ?_⟩
              have hdrop : s.drop seg.length = glueTail rest ws := by
                rw [hglue, List.drop_left]
              rw [hdrop]
              have hbound : (glueTail rest ws).length + rest.length ≤ n := by
                have : s.length = seg.length + (glueTail rest ws).length := by
                  rw [hglue]; simp
                simp only [List.length_cons] at h
                omega
              refine (ih rest _ hbound).mpr ⟨ws, by simpa using hlen, ?_, rfl⟩
              intro u hu
              exact hdot u (List.mem_cons_of_mem _ hu)
            | c :: w0 =>
              apply Bool.or_eq_true_iff.mpr
              right
              simp only [glueTail, List.cons_append] at hglue
              rw [hglue]
              apply Bool.and_eq_true_iff.mpr
              have hcw := hdot (c :: w0) (by simp)
              rw [List.all_cons, Bool.and_eq_true] at hcw
              refine ⟨hcw.1, ?_⟩
              have hbound : (w0 ++ seg ++ glueTail rest ws).length + (seg :: rest).length ≤ n := by
                have : s.length = (w0 ++ seg ++ glueTail rest ws).length + 1 := by
                  rw [hglue]; simp
                simp only [List.length_cons] at h this ⊢
                omega
              refine (ih (seg :: rest) _ hbound).mpr
                ⟨w0 :: ws, by simpa using hlen, ?_, by simp [glueTail]⟩
              intro u hu
              rcases List.mem_cons.mp hu with hu | hu
              · subst hu
                exact hcw.2
              · exact hdot u (List.mem_cons_of_mem _ hu)
  exact main (s.length + segs.length) segs s le_rfl

theorem glueSegs_eq_cons (seg : List Char) (rest ws : List (List Char))
    (h : ws.length = rest.length) :
    glueSegs (seg :: rest) ws = seg ++ glueTail rest ws := by
  induction rest generalizing seg ws with
  | nil =>
    have hws : ws = [] := List.eq_nil_of_length_eq_zero h
    subst hws
    simp [glueSegs, glueTail]
  | cons r rs ih =>
    match ws, h with
    | w :: ws, h =>
      simp only [glueSegs, glueTail]
      rw [ih r ws (by simpa using h)]
      simp [List.append_assoc]

theorem globTest_iff (pat name : List Char) :
    globTest pat name = true ↔ GlobSpec pat name := by
  unfold globTest GlobSpec
  obtain ⟨seg, rest, hsplit⟩ : ∃ seg rest, charSplit '*' pat = seg :: rest := by
    cases hc : charSplit '*' pat with
    | nil => exact absurd hc (charSplit_ne_nil _ _)
    | cons a b => exact ⟨a, b, rfl⟩
  rw [hsplit]
  simp only [matchSegs]
  constructor
  · intro hm
    obtain ⟨hpre, htail⟩ := Bool.and_eq_true_iff.mp hm
    obtain ⟨t, ht⟩ := List.isPrefixOf_iff_prefix.mp hpre
    have hdrop : name.drop seg.length = t := by rw [← ht, List.drop_left]
    rw [hdrop] at htail
    obtain ⟨ws, hlen, hdot, hglue⟩ := (matchTail_iff rest t).mp htail
    refine ⟨ws, by simp [hlen], hdot, ?_⟩
    rw [glueSegs_eq_cons seg rest ws hlen, ← ht, hglue]
  · rintro ⟨ws, hlen, hdot, hglue⟩
    have hlen2 : ws.length = rest.length := by simpa using hlen
    rw [glueSegs_eq_cons seg rest ws hlen2] at hglue
    apply Bool.and_eq_true_iff.mpr
    refine ⟨by rw [hglue]; exact List.isPrefixOf_iff_prefix.mpr ⟨_, rfl⟩, ?_⟩
    have hdrop : name.drop seg.length = glueTail rest ws := by rw [hglue, List.drop_left]
    rw [hdrop]
    exact (matchTail_iff rest _).mpr ⟨ws, hlen2, hdot, rfl⟩

/-- C3: `emit(name, data)` synchronously invokes, in registration order,
first all callbacks registered exactly under the name, then all callbacks
registered under any wildcard pattern matching the name (with the pattern
semantics of the constructed regex, characterised declaratively by
`GlobSpec`); in particular emitting `feed:42` fires the callbacks
registered under `feed:42` and under `feed:*` but not under `wire:*`. -/
theorem emit_direct_then_wildcards :
    (∀ (events : EventTable) (name : List Char),
        Dispatcher.emit events name =
          directCallbacks events name ++ wildcardCallbacks events name) ∧
    (∀ pat name : List Char, globTest pat name = true ↔ GlobSpec pat name) ∧
    Dispatcher.emit
        (Dispatcher.on' (Dispatcher.on' (Dispatcher.on' [] "feed:42".toList 0)
          "feed:*".toList 1) "wire:*".toList 2) "feed:42".toList = [0, 1] := by
  refine ⟨fun events name => rfl, globTest_iff, by decide⟩

/-- Witness for C3: the concrete three-entry table instance of the emit
ordering property. -/
theorem emit_direct_then_wildcards_witness :
    Dispatcher.emit
        (Dispatcher.on' (Dispatcher.on' (Dispatcher.on' [] "feed:42".toList 0)
          "feed:*".toList 1) "wire:*".toList 2) "feed:42".toList = [0, 1] :=
  emit_direct_then_wildcards.2.2

theorem find?_append_of_none {α : Type} (p : α → Bool) (l1 l2 : List α)
    (h : l1.find? p = none) : (l1 ++ l2).find? p = l2.find? p := by
  induction l1 with
  | nil => simp
  | cons a t ih =>
    cases hpa : p a with
    | true => simp [List.find?_cons_of_pos _ hpa] at h
    | false =>
      rw [List.find?_cons_of_neg _ (by simp [hpa])] at h
      rw [List.cons_append, List.find?_cons_of_neg _ (by simp [hpa])]
      exact ih h

/-- C6: for every event table with no entry under `name`, an `on(name, cb)`
followed by `off(name, cb)` leaves the table with no entry under `name` at
all: the round trip removes the entry entirely. -/
theorem on_off_roundtrip_removes_entry (events : EventTable) (name : List Char) (cb : Nat)
    (h : findEvent events name = none) :
    findEvent (Dispatcher.off (Dispatcher.on' events name cb) name cb) name = none := by
  unfold Dispatcher.on'
  rw [h]
  have hfind : findEvent (events ++ [⟨name, [cb]⟩]) name = some ⟨name, [cb]⟩ := by
    unfold findEvent at h ⊢
    rw [find?_append_of_none _ _ _ h]
    simp
  unfold Dispatcher.off
  rw [hfind]
  simp only [List.mem_singleton, if_pos rfl, List.erase_cons_head, if_pos rfl]
  unfold findEvent
  apply List.find?_eq_none.mpr
  intro e he
  have := (List.mem_filter.mp he).2
  simpa using this

/-- Witness for C6: starting from the empty table, registering and then
unregistering one callback leaves no entry. -/
theorem on_off_roundtrip_removes_entry_witness :
    findEvent [] "evt".toList = none ∧
    findEvent (Dispatcher.off (Dispatcher.on' [] "evt".toList 0) "evt".toList 0)
      "evt".toList = none :=
  ⟨rfl, on_off_roundtrip_removes_entry [] "evt".toList 0 rfl⟩

theorem charSplit_length_ge_two {sep : Char} {s : List Char}
    (h : s.contains sep = true) : 2 ≤ (charSplit sep s).length := by
  induction s with
  | nil => simp at h
  | cons c rest ih =>
    by_cases hc : c = sep
    · simp only [charSplit, if_pos hc, List.length_cons]
      have : charSplit sep rest ≠ [] := charSplit_ne_nil _ _
      have : 1 ≤ (charSplit sep rest).length := by
        cases hcs : charSplit sep rest with
        | nil => exact absurd hcs this
        | cons a b => simp
      omega
    · have hrest : rest.contains sep = true := by
        simp only [List.contains_cons] at h
        rcases Bool.or_eq_true_iff.mp h with h1 | h2
        · exact absurd (eq_of_beq h1).symm hc
        · exact h2
      have h2 := ih hrest
      simp only [charSplit, if_neg hc]
      cases hcs : charSplit sep rest with
      | nil => exact absurd hcs (charSplit_ne_nil _ _)
      | cons a b =>
        rw [hcs] at h2
        simpa using h2

theorem parsePairs_ok_of_colon (ps : List (List Char)) (acc : Obj (List Char) JsValue)
    (h : ∀ p ∈ ps, p.contains ':' = true) :
    ∃ o, parsePairs ps acc = .ok o := by
  induction ps generalizing acc with
  | nil => exact ⟨acc, rfl⟩
  | cons p rest ih =>
    have hp := h p (by simp)
    have hlen := charSplit_length_ge_two hp
    match hcs : charSplit ':' p, hlen with
    | a :: b :: t, _ =>
      simp only [parsePairs, hcs, List.map_cons]
      exact ih _ fun q hq => h q (by simp [hq])

/-- C5 (amended): malformed attribute pairs are not uniformly dropped.  A
pair with no colon makes the parser throw a TypeError (the undefined value
is dereferenced), aborting construction; a pair with an empty value is
kept, coerced to NaN; only empty segments between semicolons are dropped
silently, and a string whose every nonempty trimmed pair contains a colon
parses without error. -/
theorem getConfigAttribute_malformed_behavior :
    getConfigAttribute "foo".toList = .error .typeError ∧
    getConfigAttribute "a:".toList = .ok [("a".toList, .nan)] ∧
    getConfigAttribute "a:1;;b:2".toList =
      .ok [("a".toList, .num (.fin (mkRat 1 1))), ("b".toList, .num (.fin (mkRat 2 1)))] ∧
    ∀ s : List Char,
      (∀ p ∈ ((charSplit ';' s).map trimChars).filter (fun p => !p.isEmpty),
        p.contains ':' = true) →
      ∃ o, getConfigAttribute s = .ok o := by
  refine ⟨by decide, by decide, by decide, ?_⟩
  intro s h
  exact parsePairs_ok_of_colon _ _ h

/-- Witness for C5 (amended): a concrete well-formed string satisfies the
colon condition and parses without error. -/
theorem getConfigAttribute_malformed_behavior_witness :
    (∀ p ∈ ((charSplit ';' "a:1; b:2".toList).map trimChars).filter (fun p => !p.isEmpty),
      p.contains ':' = true) ∧
    ∃ o, getConfigAttribute "a:1; b:2".toList = .ok o :=
  ⟨by decide, getConfigAttribute_malformed_behavior.2.2.2 _ (by decide)⟩

/-- C4: parsing the attribute string `a:1;b:true;c:x,y` yields exactly the
record mapping `a` to the number 1, `b` to the boolean true and `c` to the
string array `x`, `y`; moreover the coercions are case-insensitive for
booleans, numeric for numeric strings, arrays for comma values and trimmed
strings otherwise. -/
theorem getConfigAttribute_coercion_example :
    getConfigAttribute "a:1;b:true;c:x,y".toList =
      .ok [("a".toList, .num (.fin (mkRat 1 1))), ("b".toList, .bool true),
           ("c".toList, .strArr ["x".toList, "y".toList])] ∧
    coerceValue "TRUE".toList = .bool true ∧
    coerceValue "False".toList = .bool false ∧
    coerceValue "2.5".toList = .num (.fin (mkRat 5 2)) ∧
    coerceValue "x , y".toList = .strArr ["x".toList, "y".toList] ∧
    coerceValue "hello".toList = .str "hello".toList := by decide

/-- Counterexample for C5: the single malformed pair `foo` (no colon) is
not dropped silently; the parser throws a TypeError, so construction does
not produce a partially-configured instance. -/
theorem getConfigAttribute_no_colon_throws : getConfigAttribute "foo".toList = Except.error JsError.typeError := by decide

/-- C7: with a context element present, `dispatchEvent` returns `false`
and performs no effect beyond the DOM dispatch itself (in particular no
deck re-publish) whenever a listener cancels the event via
`preventDefault`; it returns `true` exactly when the event was dispatched
uncancelled, and the deck re-publish happens exactly when additionally a
deck reference exists. -/
theorem dispatchEvent_cancel_veto_and_bridge {δ : Type} (hasDeck dispatched prevented : Bool)
    (name : List Char) (detail : Option δ) :
    (prevented = true →
      Component.dispatchEvent true hasDeck dispatched prevented name detail =
        (some false, [.domDispatch name detail])) ∧
    ((Component.dispatchEvent true hasDeck dispatched prevented name detail).1 = some true ↔
      (dispatched = true ∧ prevented = false)) ∧
    (CompEffect.deckEmit name detail ∈
        (Component.dispatchEvent true hasDeck dispatched prevented name detail).2 ↔
      (hasDeck = true ∧ dispatched = true ∧ prevented = false)) := by
  cases hasDeck <;> cases dispatched <;> cases prevented <;>
    simp [Component.dispatchEvent]

/-- Witness for C7 at concrete inputs: a prevented dispatch returns false
with only the DOM dispatch effect, an unprevented one returns true and
re-publishes on the deck. -/
theorem dispatchEvent_cancel_veto_and_bridge_witness :
    Component.dispatchEvent true true true true "show".toList (none : Option Nat) =
      (some false, [.domDispatch "show".toList none]) ∧
    Component.dispatchEvent true true true false "show".toList (none : Option Nat) =
      (some true, [.domDispatch "show".toList none, .deckEmit "show".toList none]) :=
  ⟨(dispatchEvent_cancel_veto_and_bridge true true true "show".toList none).1 rfl, by decide⟩

/-- C1 (code bug witness): `disconnect()` on a socket in the CONNECTING
(0) or CLOSED (3) state is a no-op: the reconnection flag is only cleared
inside the open-state branch, so it remains `true`, and a subsequent
`onclose` firing still schedules a reconnect, contrary to the claim and to
the JSDoc of `disconnect` (prevents automatic reconnection). -/
theorem disconnect_nonopen_leaves_reconnection :
    Dispatcher.disconnect { wss := some ⟨0⟩, state := ⟨true, 1000⟩ } =
      ({ wss := some ⟨0⟩, state := ⟨true, 1000⟩ }, [], none) ∧
    Dispatcher.disconnect { wss := some ⟨3⟩, state := ⟨true, 1000⟩ } =
      ({ wss := some ⟨3⟩, state := ⟨true, 1000⟩ }, [], none) ∧
    Dispatcher.onclose { wss := some ⟨3⟩, state := ⟨true, 1000⟩ } =
      [.docEvent "deck.wss.close".toList, .emitLocal "wssDisconnect".toList,
       .scheduleReconnect none] := by decide

/-- C2 (code bug witness): with the constructor defaults
(`state.reconnectionDelay = 1000`), an `onclose` on a closed socket with
the reconnection flag set emits `wssDisconnect` and then schedules exactly
one reconnect, but the delay passed to `setTimeout` is the unassigned
property `this.reconnectionDelay`, i.e. `undefined` (treated as 0 ms), not
the configured 1000 ms. -/
theorem onclose_schedules_with_undefined_delay :
    DispatcherConn.construct.state.reconnectionDelay = 1000 ∧
    Dispatcher.onclose { wss := some ⟨3⟩, state := DispatcherConn.construct.state } =
      [.docEvent "deck.wss.close".toList, .emitLocal "wssDisconnect".toList,
       .scheduleReconnect none] ∧
    (none : Option Nat) ≠ some DispatcherConn.construct.state.reconnectionDelay := by decide

/-- C9: `send(data)` serializes and transmits the datum exactly when the
socket exists and its `readyState` equals OPEN (1); for a missing socket
or any other state the call is silently dropped, with no effect at all. -/
theorem send_only_when_open {α : Type} (d : DispatcherConn) (stringify : α → List Char) (data : α) :
    (∀ w, d.wss = some w → w.readyState = 1 →
      Dispatcher.send d stringify data = [.sendFrame (stringify data)]) ∧
    (∀ w, d.wss = some w → w.readyState ≠ 1 →
      Dispatcher.send d stringify data = []) ∧
    (d.wss = none → Dispatcher.send d stringify data = []) := by
  refine ⟨?_, ?_, ?_⟩
  · intro w hw hr
    simp [Dispatcher.send, hw, hr, WebSocket.OPEN]
  · intro w hw hr
    simp [Dispatcher.send, hw, WebSocket.OPEN, hr]
  · intro hw
    simp [Dispatcher.send, hw]

/-- Witness for C9: an open socket transmits the serialized payload, a
connecting socket and a missing socket drop it. -/
theorem send_only_when_open_witness :
    Dispatcher.send ⟨some ⟨1⟩, ⟨true, 1000⟩⟩ (fun s : List Char => s) "x".toList =
      [.sendFrame "x".toList] ∧
    Dispatcher.send ⟨some ⟨0⟩, ⟨true, 1000⟩⟩ (fun s : List Char => s) "x".toList = [] ∧
    Dispatcher.send ⟨none, ⟨true, 1000⟩⟩ (fun s : List Char => s) "x".toList = [] :=
  ⟨(send_only_when_open _ _ _).1 ⟨1⟩ rfl rfl, (send_only_when_open _ _ _).2.1 ⟨0⟩ rfl (by decide), (send_only_when_open _ _ _).2.2 rfl⟩

/-- C10: calling `disconnect()` while the socket handle is still null does
not complete without error: the optional-chained guard compares undefined
with undefined and takes the branch, clears the reconnection flag, and the
unguarded `this.wss.close()` then throws a TypeError. -/
theorem disconnect_null_socket_throws (d : DispatcherConn) (h : d.wss = none) :
    (Dispatcher.disconnect d).2.2 = some .typeError ∧
    (Dispatcher.disconnect d).1.state.reconnection = false := by
  unfold Dispatcher.disconnect
  rw [h]
  simp

/-- Witness for C10: the freshly constructed Dispatcher (socket null)
throws on `disconnect()`. -/
theorem disconnect_null_socket_throws_witness :
    DispatcherConn.construct.wss = none ∧
    (Dispatcher.disconnect DispatcherConn.construct).2.2 = some .typeError :=
  ⟨rfl, (disconnect_null_socket_throws DispatcherConn.construct rfl).1⟩

theorem objFind_none_iff {κ α : Type} [DecidableEq κ] (o : Obj κ α) (k : κ) :
    (o.find? fun p => p.1 == k) = none ↔ ∀ p ∈ o, p.1 ≠ k := by
  rw [List.find?_eq_none]
  simp

theorem objSet_of_not_mem {κ α : Type} [DecidableEq κ] {o : Obj κ α} {k : κ} (v : α)
    (h : ∀ p ∈ o, p.1 ≠ k) : objSet o k v = o ++ [(k, v)] := by
  unfold objSet
  have hn : (o.find? fun p => p.1 == k) = none := (objFind_none_iff o k).mpr h
  simp [hn]

theorem objSet_of_mem_middle {κ α : Type} [DecidableEq κ] (pre post : Obj κ α)
    (p : κ × α) (k : κ) (v : α) (hp : p.1 = k)
    (hpre : ∀ q ∈ pre, q.1 ≠ k) (hpost : ∀ q ∈ post, q.1 ≠ k) :
    objSet (pre ++ p :: post) k v = pre ++ (k, v) :: post := by
  unfold objSet
  have hsome : ((pre ++ p :: post).find? fun q => q.1 == k).isSome := by
    rw [List.find?_isSome]
    exact ⟨p, by simp, by simp [hp]⟩
  rw [if_pos hsome, List.map_append, List.map_cons]
  congr 1
  · calc pre.map (fun q => if q.1 == k then (k, v) else q)
        = pre.map id := List.map_congr_left fun q hq => by simp [hpre q hq]
      _ = pre := List.map_id _
  · congr 1
    · simp [hp]
    · calc post.map (fun q => if q.1 == k then (k, v) else q)
          = post.map id := List.map_congr_left fun q hq => by simp [hpost q hq]
        _ = post := List.map_id _

theorem objSet_keys_of_mem {κ α : Type} [DecidableEq κ] {o : Obj κ α} {k : κ} (v : α)
    (h : ∃ p ∈ o, p.1 = k) : objKeys (objSet o k v) = objKeys o := by
  unfold objSet objKeys
  have hsome : (o.find? fun p => p.1 == k).isSome := by
    rw [List.find?_isSome]
    obtain ⟨p, hp, hpk⟩ := h
    exact ⟨p, hp, by simp [hpk]⟩
  rw [if_pos hsome, List.map_map]
  apply List.map_congr_left
  intro p _
  by_cases hk : p.1 = k <;> simp [hk]

theorem objSet_keys_of_not_mem {κ α : Type} [DecidableEq κ] {o : Obj κ α} {k : κ} (v : α)
    (h : ∀ p ∈ o, p.1 ≠ k) : objKeys (objSet o k v) = objKeys o ++ [k] := by
  rw [objSet_of_not_mem v h]
  simp [objKeys]

theorem objMerge_keys {κ α : Type} [DecidableEq κ] (b : Obj κ α) :
    ∀ a : Obj κ α, (objKeys a).Nodup →
    ∃ t, objKeys (objMerge a b) = objKeys a ++ t ∧ (objKeys (objMerge a b)).Nodup := by
  induction b with
  | nil =>
    intro a h
    exact ⟨[], by simp [objMerge], by simpa [objMerge] using h⟩
  | cons q rest ih =>
    intro a h
    have hstep : objMerge a (q :: rest) = objMerge (objSet a q.1 q.2) rest := by
      simp [objMerge]
    by_cases hmem : ∃ p ∈ a, p.1 = q.1
    · have hkeys := objSet_keys_of_mem (v := q.2) hmem
      have hnd : (objKeys (objSet a q.1 q.2)).Nodup := by rw [hkeys]; exact h
      obtain ⟨t, ht, hnd2⟩ := ih (objSet a q.1 q.2) hnd
      rw [hstep]
      exact ⟨t, by rw [ht, hkeys], hnd2⟩
    · push_neg at hmem
      have hkeys := objSet_keys_of_not_mem (v := q.2) hmem
      have hnotin : q.1 ∉ objKeys a := by
        intro hin
        obtain ⟨p, hp, hpk⟩ := List.mem_map.mp hin
        exact hmem p hp hpk
      have hnd : (objKeys (objSet a q.1 q.2)).Nodup := by
        rw [hkeys, List.nodup_append]
        refine ⟨h, List.nodup_singleton _, ?_⟩
        intro x hx hx2
        simp only [List.mem_singleton] at hx2
        subst hx2
        exact hnotin hx
      obtain ⟨t, ht, hnd2⟩ := ih _ hnd
      rw [hstep]
      exact ⟨[q.1] ++ t, by rw [ht, hkeys, List.append_assoc], hnd2⟩

theorem objMerge_fresh {κ α : Type} [DecidableEq κ] :
    ∀ (c acc : Obj κ α), (objKeys acc ++ objKeys c).Nodup → objMerge acc c = acc ++ c := by
  intro c
  induction c with
  | nil => intro acc _; simp [objMerge]
  | cons q rest ih =>
    intro acc h
    have hq_not : ∀ p ∈ acc, p.1 ≠ q.1 := by
      intro p hp hpq
      rw [List.nodup_append] at h
      exact h.2.2 (List.mem_map.mpr ⟨p, hp, hpq⟩) (by simp [objKeys])
    have hstep : objMerge acc (q :: rest) = objMerge (objSet acc q.1 q.2) rest := by
      simp [objMerge]
    rw [hstep, objSet_of_not_mem q.2 hq_not, ih (acc ++ [(q.1, q.2)]) ?_]
    · simp
    · have heq : objKeys (acc ++ [(q.1, q.2)]) ++ objKeys rest =
          objKeys acc ++ q.1 :: objKeys rest := by
        simp [objKeys]
      rw [heq]
      simpa [objKeys] using h

theorem objMerge_overwrite {κ α : Type} [DecidableEq κ] :
    ∀ (c a pre : Obj κ α), objKeys a = objKeys c → (objKeys pre ++ objKeys a).Nodup →
    objMerge (pre ++ a) c = pre ++ c := by
  intro c
  induction c with
  | nil =>
    intro a pre hk _
    have ha : a = [] := by
      cases a with
      | nil => rfl
      | cons x xs => simp [objKeys] at hk
    subst ha
    simp [objMerge]
  | cons q rest ih =>
    intro a pre hk hnd
    match a with
    | [] => simp [objKeys] at hk
    | p :: a2 =>
      have hk1 : p.1 :: objKeys a2 = q.1 :: objKeys rest := by
        simpa [objKeys] using hk
      obtain ⟨hpk, hk2⟩ := List.cons.inj hk1
      have hnd1 : (objKeys pre ++ p.1 :: objKeys a2).Nodup := by
        simpa [objKeys] using hnd
      have hpre_ne : ∀ r ∈ pre, r.1 ≠ q.1 := by
        intro r hr hrq
        rw [List.nodup_append] at hnd1
        exact hnd1.2.2 (List.mem_map.mpr ⟨r, hr, rfl⟩)
          (by rw [hrq, ← hpk]; exact List.mem_cons_self _ _)
      have ha2_ne : ∀ r ∈ a2, r.1 ≠ q.1 := by
        intro r hr hrq
        rw [List.nodup_append, List.nodup_cons] at hnd1
        exact hnd1.2.1.1 (List.mem_map.mpr ⟨r, hr, hrq.trans hpk.symm⟩)
      have hset : objSet (pre ++ p :: a2) q.1 q.2 = pre ++ (q.1, q.2) :: a2 :=
        objSet_of_mem_middle pre a2 p q.1 q.2 hpk hpre_ne ha2_ne
      have hstep : objMerge (pre ++ p :: a2) (q :: rest) =
          objMerge (objSet (pre ++ p :: a2) q.1 q.2) rest := by
        simp [objMerge]
      rw [hstep, hset, show pre ++ (q.1, q.2) :: a2 = (pre ++ [(q.1, q.2)]) ++ a2 by simp]
      rw [ih a2 (pre ++ [(q.1, q.2)]) hk2 ?_]
      · simp
      · have heq : objKeys (pre ++ [(q.1, q.2)]) ++ objKeys a2 =
            objKeys pre ++ q.1 :: objKeys a2 := by
          simp [objKeys]
        rw [heq, ← hpk]
        exact hnd1

theorem objMerge_self_merge {κ α : Type} [DecidableEq κ] (a b : Obj κ α)
    (h : (objKeys a).Nodup) :
    objMerge a (objMerge a b) = objMerge a b := by
  obtain ⟨t, hkeys, hnd⟩ := objMerge_keys b a h
  set c := objMerge a b with hc
  have hlen_a : a.length = (objKeys a).length := by simp [objKeys]
  have hkeys_take : objKeys (c.take a.length) = objKeys a := by
    unfold objKeys
    rw [List.map_take]
    show (objKeys c).take a.length = objKeys a
    rw [hkeys, hlen_a, List.take_left]
  have hkeys_drop : objKeys (c.drop a.length) = t := by
    unfold objKeys
    rw [List.map_drop]
    show (objKeys c).drop a.length = t
    rw [hkeys, hlen_a, List.drop_left]
  have hsplit : c.take a.length ++ c.drop a.length = c := List.take_append_drop _ _
  calc objMerge a c
      = objMerge a (c.take a.length ++ c.drop a.length) := by rw [hsplit]
    _ = objMerge (objMerge a (c.take a.length)) (c.drop a.length) :=
        List.foldl_append _ _ _ _
    _ = objMerge (c.take a.length) (c.drop a.length) := by
        have hov := objMerge_overwrite (c.take a.length) a ([] : Obj κ α)
          (by rw [hkeys_take]) (by simpa [objKeys] using h)
        simp only [List.nil_append] at hov
        rw [hov]
    _ = c.take a.length ++ c.drop a.length := by
        apply objMerge_fresh
        rw [hkeys_take, hkeys_drop, ← hkeys]
        exact hnd
    _ = c := hsplit

theorem objGet_objSet_self {κ α : Type} [DecidableEq κ] (o : Obj κ α) (k : κ) (v : α) :
    objGet (objSet o k v) k = some v := by
  induction o with
  | nil => simp [objGet, objSet]
  | cons p rest ih =>
    by_cases hpk : p.1 = k
    · have hsome : ((p :: rest).find? fun q => q.1 == k).isSome := by
        rw [List.find?_cons_of_pos _ (by simp [hpk])]
        rfl
      unfold objSet objGet
      rw [if_pos hsome, List.map_cons,
        show (if (p.1 == k) = true then (k, v) else p) = (k, v) by simp [hpk],
        List.find?_cons_of_pos _ (by simp)]
      rfl
    · have hfind_cons : ((p :: rest).find? fun q => q.1 == k) =
          rest.find? fun q => q.1 == k :=
        List.find?_cons_of_neg _ (by simp [hpk])
      unfold objSet objGet at ih ⊢
      by_cases hsome : (rest.find? fun q => q.1 == k).isSome
      · rw [if_pos (by rw [hfind_cons]; exact hsome), List.map_cons,
          show (if (p.1 == k) = true then (k, v) else p) = p by simp [hpk],
          List.find?_cons_of_neg _ (by simp [hpk])]
        rw [if_pos hsome] at ih
        exact ih
      · rw [if_neg (by rw [hfind_cons]; exact hsome), List.cons_append,
          List.find?_cons_of_neg _ (by simp [hpk])]
        rw [if_neg hsome] at ih
        exact ih

/-- Counterexample for C8: on a component without a deck reference,
`updateState` leaves the local state field unchanged (the computed merge is
discarded), so the local state does not reflect the merge afterwards. -/
theorem updateState_no_deck_counterexample :
    (Component.updateState (α := Nat)
        ⟨false, false, "k".toList, [], []⟩ [("x".toList, 1)]).compState = [] ∧
    objMerge ([] : Obj (List Char) Nat) [("x".toList, 1)] = [("x".toList, 1)] ∧
    ([] : Obj (List Char) Nat) ≠ [("x".toList, 1)] := by decide

theorem setState_subscribed {α : Type} (w : CompWorld α)
    (value : Obj (List Char) α) (hsub : w.subscribed = true) :
    Deck.setState w w.stateKey value =
      { w with deckState := objSet w.deckState w.stateKey value,
               compState := objMerge w.compState value } := by
  unfold Deck.setState stateChangeHandler
  simp [hsub, objGet]

/-- C8 (amended): `updateState(partial)` computes the shallow merge of the
update into local state.  When a deck is present (and the component holds
the `initState` subscription, with well-formed state keys), the merged
record is published on the bus under the instance state key and the local
state field comes to reflect the merge through the synchronous
`stateChange` round trip; when no deck is present the merge is discarded
and the component is unchanged. -/
theorem updateState_merge_via_bus {α : Type} (w : CompWorld α) (p : Obj (List Char) α) :
    (w.hasDeck = true → w.subscribed = true → (objKeys w.compState).Nodup →
      (Component.updateState w p).compState = objMerge w.compState p ∧
      objGet (Component.updateState w p).deckState w.stateKey =
        some (objMerge w.compState p)) ∧
    (w.hasDeck = false → Component.updateState w p = w) := by
  constructor
  · intro hdeck hsub hnd
    unfold Component.updateState
    rw [hdeck]
    simp only [if_true]
    rw [setState_subscribed w (objMerge w.compState p) hsub]
    exact ⟨objMerge_self_merge w.compState p hnd, objGet_objSet_self _ _ _⟩
  · intro hdeck
    unfold Component.updateState
    rw [hdeck]
    simp

/-- Witness for C8 (amended) at a concrete component: after
`updateState`, the local state equals the merge. -/
theorem updateState_merge_via_bus_witness :
    (Component.updateState (α := Nat)
        ⟨true, true, "k".toList, [("a".toList, 5)], []⟩ [("x".toList, 1)]).compState =
      objMerge [("a".toList, 5)] [("x".toList, 1)] :=
  ((updateState_merge_via_bus ⟨true, true, "k".toList, [("a".toList, 5)], []⟩ [("x".toList, 1)]).1
    rfl rfl (by decide)).1
